import Mathlib

/-!
# NoisyLinear layer and DuelingDQN: a shallow embedding

Source files embedded here:

* `src/mlpack/methods/ann/layer/noisylinear_impl.hpp`
* `src/mlpack/methods/reinforcement_learning/q_networks/dueling_dqn.hpp`

Modelling conventions.

* An Armadillo matrix (`arma::Mat<eT>`) is a record of its row count, its
  column count and its element memory, stored column by column.  Elements
  are rationals, so every identity below is one of exact arithmetic.
* Armadillo's checked operations (the default build, `ARMA_NO_DEBUG` not
  defined) throw `std::logic_error` when dimensions do not conform or an
  index range leaves the matrix.  Such operations return `Except Err Mat`.
* `size_t` / `uword` quantities are natural numbers, and the arithmetic the
  source does on them is that of a 64-bit word: the block length
  `outSize * inSize + outSize` is reduced modulo `2^64`, and `n_elem - 1`
  wraps to `2^64 - 1` at zero.  The shape bookkeeping inside Armadillo (the
  element count of a matrix that exists) is taken in the naturals.
* A matrix built over foreign memory (`arma::mat(ptr, r, c, false, false)`)
  owns no elements.  It is a `View`: an offset into the parameter block plus
  a shape.  Its elements are whatever the block holds at that moment.
-/

namespace mlpack

/-! ## Armadillo matrices -/

/-- Failures of the operations used by the two source files. -/
inductive Err where
  /-- Armadillo: incompatible matrix dimensions, or indices out of bounds. -/
  | logic_error
  /-- Archive: the stream ended before the requested field. -/
  | archive_exception
  deriving DecidableEq

/-- Dense matrix `arma::Mat`: shape plus column-major element memory. -/
structure Mat where
  n_rows : Nat
  n_cols : Nat
  mem : List ℚ
  deriving DecidableEq

namespace Mat

/-- Number of elements, the member `n_elem`. -/
def n_elem (m : Mat) : Nat := m.n_rows * m.n_cols

/-- The memory holds exactly `n_rows * n_cols` elements. -/
def wf (m : Mat) : Prop := m.mem.length = m.n_rows * m.n_cols

instance (m : Mat) : Decidable m.wf := by unfold wf; infer_instance

/-- Default-constructed matrix: `0 x 0`, no elements. -/
def empty : Mat := ⟨0, 0, []⟩

/-- Element `(i, j)`: column-major, so it sits at `i + j * n_rows`. -/
def elem (m : Mat) (i j : Nat) : ℚ := m.mem.getD (i + j * m.n_rows) 0

/-- Matrix of shape `r x c` whose element `(i, j)` is `f i j`. -/
def ofFn (r c : Nat) (f : Nat → Nat → ℚ) : Mat :=
  ⟨r, c, (List.range (r * c)).map (fun t => f (t % r) (t / r))⟩

/-- Column vector holding the given elements. -/
def colvec (p : List ℚ) : Mat := ⟨p.length, 1, p⟩

/-- Armadillo `set_size(r, c)`: when the element count is unchanged the memory is
kept and only the shape changes; otherwise new memory is acquired, whose
contents are not initialised (`junk` stands for what it happens to hold). -/
def set_size (m : Mat) (r c : Nat) (junk : Nat → ℚ) : Mat :=
  if m.n_elem = r * c then ⟨r, c, m.mem⟩
  else ⟨r, c, (List.range (r * c)).map junk⟩

/-- Armadillo `A * B`: dimensions must conform. -/
def mul (A B : Mat) : Except Err Mat :=
  if A.n_cols = B.n_rows then
    .ok (ofFn A.n_rows B.n_cols
      (fun i k => ∑ j ∈ Finset.range A.n_cols, A.elem i j * B.elem j k))
  else .error .logic_error

/-- Armadillo `A.t()`. -/
def t (A : Mat) : Mat := ofFn A.n_cols A.n_rows (fun i j => A.elem j i)

/-- Armadillo `M.each_col() += v`: `v` must be a column with as many rows as `M`. -/
def each_col_add (M v : Mat) : Except Err Mat :=
  if v.n_rows = M.n_rows ∧ v.n_cols = 1 then
    .ok (ofFn M.n_rows M.n_cols (fun i k => M.elem i k + v.elem i 0))
  else .error .logic_error

/-- Armadillo `arma::vectorise(M)`: the columns stacked into one column. -/
def vectorise (M : Mat) : Mat := ⟨M.n_rows * M.n_cols, 1, M.mem⟩

/-- Armadillo `arma::sum(M, 1)`: the sum of each row, as a column. -/
def sum1 (M : Mat) : Mat :=
  ofFn M.n_rows 1 (fun i _ => ∑ k ∈ Finset.range M.n_cols, M.elem i k)

/-- Armadillo `G.submat(r1, c1, r2, c2) = S`: the index range must lie inside `G` and
`S` must have the shape of the range. -/
def submat_assign (G : Mat) (r1 c1 r2 c2 : Nat) (S : Mat) : Except Err Mat :=
  if r1 > r2 ∨ c1 > c2 ∨ r2 ≥ G.n_rows ∨ c2 ≥ G.n_cols then .error .logic_error
  else if S.n_rows = r2 - r1 + 1 ∧ S.n_cols = c2 - c1 + 1 then
    .ok (ofFn G.n_rows G.n_cols (fun i j =>
      if r1 ≤ i ∧ i ≤ r2 ∧ c1 ≤ j ∧ j ≤ c2 then S.elem (i - r1) (j - c1)
      else G.elem i j))
  else .error .logic_error

end Mat

/-- The `uword` expression `n - 1`: below zero it wraps to `2^64 - 1`. -/
def uword_pred (n : Nat) : Nat := if n = 0 then 2 ^ 64 - 1 else n - 1

/-! ## Views over the parameter block -/

/-- Matrix over foreign memory: `arma::mat(base + off, n_rows, n_cols, false, false)`. -/
structure View where
  off : Nat
  n_rows : Nat
  n_cols : Nat
  deriving DecidableEq

namespace View

/-- The view a default-constructed matrix amounts to: no elements. -/
def empty : View := ⟨0, 0, 0⟩

/-- Number of elements, the member `n_elem`. -/
def n_elem (v : View) : Nat := v.n_rows * v.n_cols

/-- The matrix seen through the view, given the current block. -/
def read (v : View) (block : Mat) : Mat :=
  ⟨v.n_rows, v.n_cols, (block.mem.drop v.off).take (v.n_rows * v.n_cols)⟩

/-- Store `x` into element `(i, j)` of the view: the store lands in the block. -/
def write (v : View) (block : Mat) (i j : Nat) (x : ℚ) : Mat :=
  { block with mem := block.mem.set (v.off + (i + j * v.n_rows)) x }

end View

/-- Store `x` into element `t` of the block itself. -/
def Mat.write (block : Mat) (t : Nat) (x : ℚ) : Mat :=
  { block with mem := block.mem.set t x }

/-! ## NoisyLinear -/

/-- Data members of `NoisyLinear`. -/
structure NoisyLinear where
  inSize : Nat
  outSize : Nat
  /-- The parameter block `weights`. -/
  weights : Mat
  /-- The member `weight`, bound by `Reset`. -/
  weight : View
  /-- The member `bias`, bound by `Reset`. -/
  bias : View
  deriving DecidableEq

namespace NoisyLinear

/-- The constructor `NoisyLinear()`. -/
def default : NoisyLinear := ⟨0, 0, Mat.empty, View.empty, View.empty⟩

/-- The constructor `NoisyLinear(inSize, outSize)`.  The block length is the `size_t`
expression `outSize * inSize + outSize`, which wraps modulo `2^64`. -/
def new (inSize outSize : Nat) (junk : Nat → ℚ) : NoisyLinear :=
  { inSize := inSize
    outSize := outSize
    weights := Mat.empty.set_size ((outSize * inSize + outSize) % 2 ^ 64) 1 junk
    weight := View.empty
    bias := View.empty }

/-- The member function `Reset()`. -/
def Reset (L : NoisyLinear) : NoisyLinear :=
  let weight : View := ⟨0, L.outSize, L.inSize⟩
  { L with
    weight := weight
    bias := ⟨0 + weight.n_elem, L.outSize, 1⟩ }

/-- The matrix currently seen through `weight`. -/
def weightMat (L : NoisyLinear) : Mat := L.weight.read L.weights

/-- The matrix currently seen through `bias`. -/
def biasMat (L : NoisyLinear) : Mat := L.bias.read L.weights

/-- The member function `Forward(input, output)`; the result is the new `output`. -/
def Forward (L : NoisyLinear) (input : Mat) : Except Err Mat := do
  let output ← L.weightMat.mul input
  output.each_col_add L.biasMat

/-- The member function `Backward(input, gy, g)`; the result is the new `g`. -/
def Backward (L : NoisyLinear) (_input : Mat) (gy : Mat) : Except Err Mat :=
  L.weightMat.t.mul gy

/-- The member function `Gradient(input, error, gradient)`; the result is the
new `gradient`. -/
def Gradient (L : NoisyLinear) (input error gradient : Mat) : Except Err Mat := do
  let prod ← error.mul input.t
  let g1 ← gradient.submat_assign 0 0 (uword_pred L.weight.n_elem) 0 prod.vectorise
  g1.submat_assign L.weight.n_elem 0 (uword_pred g1.n_elem) 0 error.sum1

/-- The block has the shape the constructor gives it for the layer's sizes. -/
def Allocated (L : NoisyLinear) : Prop :=
  L.weights.n_rows = L.outSize * L.inSize + L.outSize ∧ L.weights.n_cols = 1 ∧
    L.weights.wf

/-! ### Serialization -/

/-- The archive, as the sequence of `size_t` fields it holds. -/
structure Archive where
  fields : List Nat
  deriving DecidableEq

/-- The operation `ar & x` on a `size_t` member: a saving archive appends the member,
a loading archive reads the next field into it. -/
def Archive.amp (loading : Bool) (ar : Archive) (x : Nat) : Except Err (Archive × Nat) :=
  if loading then
    match ar.fields with
    | [] => .error .archive_exception
    | v :: rest => .ok (⟨rest⟩, v)
  else .ok (⟨ar.fields ++ [x]⟩, x)

/-- The member function `serialize(ar, version)`; `loading` is `Archive::is_loading::value`.
On load the block is resized to the `size_t` expression `outSize * inSize + outSize`,
which wraps modulo `2^64`. -/
def serialize (loading : Bool) (ar : Archive) (L : NoisyLinear) (junk : Nat → ℚ) :
    Except Err (Archive × NoisyLinear) := do
  let (ar1, inSize) ← Archive.amp loading ar L.inSize
  let (ar2, outSize) ← Archive.amp loading ar1 L.outSize
  let L1 := { L with inSize := inSize, outSize := outSize }
  if loading then
    .ok (ar2, { L1 with
      weights := L1.weights.set_size ((outSize * inSize + outSize) % 2 ^ 64) 1 junk })
  else .ok (ar2, L1)

end NoisyLinear

/-! ## DuelingDQN -/

/-- Modelled from the spec: the layer kinds `Linear<>(inSize, outSize)` and
`ReLULayer<>()`, whose declarations are outside the two source files.  Only the
sizes a `Linear` layer is constructed with are recorded. -/
inductive Layer where
  | Linear (inSize outSize : Nat)
  | ReLULayer
  deriving DecidableEq

/-- Modelled from the spec: the container `Sequential<>`, an ordered sequence of
layers that `Add` appends to. -/
structure Sequential where
  network : List Layer
  deriving DecidableEq

/-- Modelled from the spec: what can be added to the feature network, a plain
layer or a `Concat<>` of sub-networks. -/
inductive FFNLayer where
  | layer (l : Layer)
  | Concat (children : List Sequential)
  deriving DecidableEq

/-- Modelled from the spec: the container `FFN<EmptyLoss<>, GaussianInitialization>`,
an ordered sequence of layers together with its parameter matrix. -/
structure FFN where
  network : List FFNLayer
  parameter : Mat
  deriving DecidableEq

/-- The member function `Add` of `Sequential<>`. -/
def Sequential.Add (s : Sequential) (l : Layer) : Sequential := ⟨s.network ++ [l]⟩

/-- The member function `Add` of the feature network. -/
def FFN.Add (f : FFN) (l : FFNLayer) : FFN := { f with network := f.network ++ [l] }

/-- Conversion of an `int` argument to the `size_t` that `Linear<>` takes. -/
def to_size_t (n : Int) : Nat := (n % 2 ^ 64).toNat

/-- Data members of `DuelingDQN`. -/
structure DuelingDQN where
  featureNetwork : FFN
  advantageNetwork : Sequential
  valueNetwork : Sequential
  networkOutput : Mat
  features : Mat
  deriving DecidableEq

namespace DuelingDQN

/-- The constructor `DuelingDQN(inputDim, h1, h2, outputDim)`. -/
def new (inputDim h1 h2 outputDim : Int) : DuelingDQN :=
  let valueNetwork : Sequential := ⟨[]⟩
  let advantageNetwork : Sequential := ⟨[]⟩
  let featureNetwork : FFN := ⟨[], Mat.empty⟩
  let valueNetwork := valueNetwork.Add (.Linear (to_size_t h1) (to_size_t h2))
  let valueNetwork := valueNetwork.Add .ReLULayer
  let valueNetwork := valueNetwork.Add (.Linear (to_size_t h2) 1)
  let advantageNetwork := advantageNetwork.Add (.Linear (to_size_t h1) (to_size_t h2))
  let advantageNetwork := advantageNetwork.Add .ReLULayer
  let advantageNetwork := advantageNetwork.Add (.Linear (to_size_t h1) (to_size_t outputDim))
  let concat : List Sequential := []
  let concat := concat ++ [valueNetwork]
  let concat := concat ++ [advantageNetwork]
  let featureNetwork := featureNetwork.Add (.layer (.Linear (to_size_t inputDim) (to_size_t h1)))
  let featureNetwork := featureNetwork.Add (.layer .ReLULayer)
  let featureNetwork := featureNetwork.Add (.Concat concat)
  { featureNetwork := featureNetwork
    advantageNetwork := advantageNetwork
    valueNetwork := valueNetwork
    networkOutput := Mat.empty
    features := Mat.empty }

/-- The member function `Predict(state, actionValue)`.  Its body holds comments only,
so the object and `actionValue` come back as they went in. -/
def Predict (q : DuelingDQN) (_state : Mat) (actionValue : Mat) : DuelingDQN × Mat :=
  (q, actionValue)

/-- The member function `Forward(state, output)`.  Its body holds comments only. -/
def Forward (q : DuelingDQN) (_state : Mat) (output : Mat) : DuelingDQN × Mat :=
  (q, output)

/-- The member function `Backward(state, target, gradient)`.  Its body holds comments
only; the result is the object, `target` and `gradient` after the call. -/
def Backward (q : DuelingDQN) (_state : Mat) (target gradient : Mat) :
    DuelingDQN × Mat × Mat :=
  (q, target, gradient)

end DuelingDQN

/-- Mean of column `s` of `A` over its rows (the actions of state `s`). -/
def col_mean (A : Mat) (s : Nat) : ℚ :=
  (∑ a ∈ Finset.range A.n_rows, A.elem a s) / A.n_rows

/-- The combination the specification asks of `Predict`, in the spec's words:
`advantage - mean(advantage across actions) + value`, per state. -/
def spec_actionValue (advantage value : Mat) : Mat :=
  Mat.ofFn advantage.n_rows advantage.n_cols
    (fun a s => advantage.elem a s - col_mean advantage s + value.elem 0 s)

/-- The width a layer produces from vectors of width `w`, when it accepts them: a
`Linear` layer accepts exactly its `inSize` (its weight has `inSize` columns) and
produces its `outSize`; `ReLULayer` keeps the width. -/
def Layer.out_width (w : Nat) : Layer → Option Nat
  | .Linear inSize outSize => if inSize = w then some outSize else none
  | .ReLULayer => some w

/-- The width a sequence of layers produces from vectors of width `w`, when every layer
accepts what the layers before it produce. -/
def layers_out_width (w : Nat) : List Layer → Option Nat
  | [] => some w
  | l :: rest =>
    match l.out_width w with
    | some w1 => layers_out_width w1 rest
    | none => none

/-! ## Basic facts about matrices -/

theorem Mat.index_lt {r c i j : Nat} (hi : i < r) (hj : j < c) : i + j * r < r * c := by
  have h1 : (j + 1) * r ≤ c * r := Nat.mul_le_mul_right r hj
  have h2 : i + j * r < (j + 1) * r := by rw [Nat.add_mul, Nat.one_mul]; omega
  rw [Nat.mul_comm r c]; omega

theorem Mat.elem_ofFn {r c : Nat} (f : Nat → Nat → ℚ) {i j : Nat} (hi : i < r) (hj : j < c) :
    (Mat.ofFn r c f).elem i j = f i j := by
  have hlt : i + j * r < r * c := Mat.index_lt hi hj
  have hr : 0 < r := by omega
  simp only [Mat.elem, Mat.ofFn]
  rw [List.getD_eq_getElem _ _ (by simpa using hlt)]
  simp only [List.getElem_map, List.getElem_range]
  rw [Nat.add_mul_mod_self_right, Nat.mod_eq_of_lt hi, Nat.add_mul_div_right _ _ hr,
    Nat.div_eq_of_lt hi, Nat.zero_add]

theorem Mat.wf_ofFn (r c : Nat) (f : Nat → Nat → ℚ) : (Mat.ofFn r c f).wf := by
  simp [Mat.wf, Mat.ofFn]

theorem Mat.mul_ok {A B : Mat} (h : A.n_cols = B.n_rows) :
    A.mul B = .ok (Mat.ofFn A.n_rows B.n_cols
      (fun i k => ∑ j ∈ Finset.range A.n_cols, A.elem i j * B.elem j k)) := by
  simp [Mat.mul, h]

theorem Mat.each_col_add_ok {M v : Mat} (hr : v.n_rows = M.n_rows) (hc : v.n_cols = 1) :
    M.each_col_add v =
      .ok (Mat.ofFn M.n_rows M.n_cols (fun i k => M.elem i k + v.elem i 0)) := by
  simp [Mat.each_col_add, hr, hc]

theorem Mat.elem_t (A : Mat) {i j : Nat} (hi : i < A.n_cols) (hj : j < A.n_rows) :
    A.t.elem i j = A.elem j i := by
  simp only [Mat.t]
  exact Mat.elem_ofFn _ hi hj

/-- Element `(i, j)` of a view is the block element at `off + i + j * n_rows`. -/
theorem View.elem_read (v : View) (block : Mat) {i j : Nat} (hi : i < v.n_rows)
    (hj : j < v.n_cols) :
    (v.read block).elem i j = block.mem.getD (v.off + (i + j * v.n_rows)) 0 := by
  have hlt : i + j * v.n_rows < v.n_rows * v.n_cols := Mat.index_lt hi hj
  simp only [Mat.elem, View.read, List.getD_eq_getElem?_getD, List.getElem?_take,
    List.getElem?_drop, if_pos hlt]

theorem View.wf_read (v : View) (block : Mat)
    (h : v.off + v.n_rows * v.n_cols ≤ block.mem.length) : (v.read block).wf := by
  simp only [Mat.wf, View.read, List.length_take, List.length_drop]
  omega

theorem NoisyLinear.Allocated.length {L : NoisyLinear} (h : L.Allocated) :
    L.weights.mem.length = L.outSize * L.inSize + L.outSize := by
  obtain ⟨h1, h2, hw⟩ := h
  rw [Mat.wf, h1, h2, Nat.mul_one] at hw
  exact hw

theorem NoisyLinear.wf_weightMat_Reset (L : NoisyLinear) (h : L.Allocated) :
    L.Reset.weightMat.wf := by
  have hlen := h.length
  apply View.wf_read
  simp only [NoisyLinear.Reset]
  omega

theorem NoisyLinear.wf_biasMat_Reset (L : NoisyLinear) (h : L.Allocated) :
    L.Reset.biasMat.wf := by
  have hlen := h.length
  apply View.wf_read
  simp only [NoisyLinear.Reset, View.n_elem]
  omega

/-! ## NoisyLinear: Forward, Backward, Gradient -/

/-- The value `Forward` computes once the views are bound and the input has
`inSize` rows. -/
theorem NoisyLinear.Forward_Reset_eq (L : NoisyLinear) (X : Mat) (hr : X.n_rows = L.inSize) :
    L.Reset.Forward X = .ok (Mat.ofFn L.outSize X.n_cols (fun i k =>
      (Mat.ofFn L.outSize X.n_cols (fun i k =>
        ∑ j ∈ Finset.range L.inSize, L.Reset.weightMat.elem i j * X.elem j k)).elem i k
      + L.Reset.biasMat.elem i 0)) := by
  have hm : L.Reset.weightMat.n_cols = X.n_rows := hr.symm
  have hbr : L.Reset.biasMat.n_rows = L.outSize := rfl
  have hbc : L.Reset.biasMat.n_cols = 1 := rfl
  simp only [NoisyLinear.Forward, Mat.mul_ok hm, bind, Except.bind]
  rw [Mat.each_col_add_ok (by rw [hbr]; rfl) hbc]
  rfl

/-- C1. After `Reset`, `Forward` on an input with `inSize` rows and `b` columns succeeds
with an `outSize x b` matrix whose entry `(i, k)` is
`sum_j weight(i, j) * X(j, k) + bias(i)`. -/
theorem NoisyLinear.Forward_spec (L : NoisyLinear) (X : Mat) (hL : L.Allocated)
    (hr : X.n_rows = L.inSize) :
    L.Reset.weightMat.wf ∧ L.Reset.biasMat.wf ∧
    ∃ Y, L.Reset.Forward X = .ok Y ∧ Y.wf ∧ Y.n_rows = L.outSize ∧ Y.n_cols = X.n_cols ∧
      ∀ i k, i < L.outSize → k < X.n_cols →
        Y.elem i k =
          (∑ j ∈ Finset.range L.inSize, L.Reset.weightMat.elem i j * X.elem j k)
            + L.Reset.biasMat.elem i 0 := by
  refine ⟨L.wf_weightMat_Reset hL, L.wf_biasMat_Reset hL, _,
    L.Forward_Reset_eq X hr, Mat.wf_ofFn _ _ _, rfl, rfl, ?_⟩
  intro i k hi hk
  rw [Mat.elem_ofFn _ hi hk, Mat.elem_ofFn _ hi hk]

/-- Witness for C1: `inSize = 2`, `outSize = 1`, weight `[1, 2]`, bias `[1/2]` and the
single input column `(3, 4)`. -/
theorem NoisyLinear.Forward_spec_witness :
    (NoisyLinear.mk 2 1 (Mat.colvec [1, 2, 1 / 2]) View.empty View.empty).Allocated ∧
    (Mat.mk 2 1 [3, 4]).wf ∧
    ∃ Y, (NoisyLinear.mk 2 1 (Mat.colvec [1, 2, 1 / 2]) View.empty View.empty).Reset.Forward
        (Mat.mk 2 1 [3, 4]) = .ok Y ∧ Y.n_rows = 1 ∧ Y.n_cols = 1 ∧
      Y.elem 0 0 = 23 / 2 := by
  have hL : (NoisyLinear.mk 2 1 (Mat.colvec [1, 2, 1 / 2]) View.empty View.empty).Allocated := by
    simp [NoisyLinear.Allocated, Mat.colvec, Mat.wf]
  have hX : (Mat.mk 2 1 [3, 4]).wf := by simp [Mat.wf]
  obtain ⟨_, _, Y, hY, _, h1, h2, h3⟩ :=
    NoisyLinear.Forward_spec (NoisyLinear.mk 2 1 (Mat.colvec [1, 2, 1 / 2]) View.empty View.empty)
      (Mat.mk 2 1 [3, 4]) hL rfl
  refine ⟨hL, hX, Y, hY, h1, h2, ?_⟩
  rw [h3 0 0 (by decide) (by decide)]
  simp [Finset.sum_range_succ, NoisyLinear.weightMat, NoisyLinear.biasMat, NoisyLinear.Reset,
    View.read, View.n_elem, Mat.elem, Mat.colvec]
  norm_num

theorem Mat.submat_assign_ok {G S : Mat} {r1 c1 r2 c2 : Nat} (hr : r1 ≤ r2) (hc : c1 ≤ c2)
    (hr2 : r2 < G.n_rows) (hc2 : c2 < G.n_cols) (hSr : S.n_rows = r2 - r1 + 1)
    (hSc : S.n_cols = c2 - c1 + 1) :
    G.submat_assign r1 c1 r2 c2 S = .ok (Mat.ofFn G.n_rows G.n_cols (fun i j =>
      if r1 ≤ i ∧ i ≤ r2 ∧ c1 ≤ j ∧ j ≤ c2 then S.elem (i - r1) (j - c1)
      else G.elem i j)) := by
  have h1 : ¬ (r1 > r2 ∨ c1 > c2 ∨ r2 ≥ G.n_rows ∨ c2 ≥ G.n_cols) := by omega
  simp only [Mat.submat_assign, if_neg h1, hSr, hSc, and_self, if_true]

theorem Mat.elem_vectorise (M : Mat) (i j : Nat) :
    M.vectorise.elem (i + j * M.n_rows) 0 = M.elem i j := by
  simp [Mat.elem, Mat.vectorise]

/-- What a successful `submat` assignment leaves in the matrix. -/
theorem Mat.submat_assign_spec (G S : Mat) (r1 c1 r2 c2 : Nat) (hr : r1 ≤ r2) (hc : c1 ≤ c2)
    (hr2 : r2 < G.n_rows) (hc2 : c2 < G.n_cols) (hSr : S.n_rows = r2 - r1 + 1)
    (hSc : S.n_cols = c2 - c1 + 1) :
    ∃ R, G.submat_assign r1 c1 r2 c2 S = .ok R ∧ R.wf ∧ R.n_rows = G.n_rows ∧
      R.n_cols = G.n_cols ∧
      ∀ i j, i < G.n_rows → j < G.n_cols →
        R.elem i j = if r1 ≤ i ∧ i ≤ r2 ∧ c1 ≤ j ∧ j ≤ c2 then S.elem (i - r1) (j - c1)
          else G.elem i j := by
  refine ⟨_, Mat.submat_assign_ok hr hc hr2 hc2 hSr hSc, Mat.wf_ofFn _ _ _, rfl, rfl, ?_⟩
  intro i j hi hj
  rw [Mat.elem_ofFn _ hi hj]

theorem uword_pred_pos {n : Nat} (h : 1 ≤ n) : uword_pred n = n - 1 := by
  have h0 : n ≠ 0 := by omega
  simp [uword_pred, h0]

/-- The entries `Gradient` leaves in the buffer once the views are bound, for non-empty
sizes and arguments of matching shapes. -/
theorem NoisyLinear.Gradient_Reset_entries (L : NoisyLinear) (X E G : Mat)
    (hin : 1 ≤ L.inSize) (hout : 1 ≤ L.outSize)
    (hXr : X.n_rows = L.inSize) (hEr : E.n_rows = L.outSize) (hb : E.n_cols = X.n_cols)
    (hGr : G.n_rows = L.outSize * L.inSize + L.outSize) (hGc : G.n_cols = 1) :
    ∃ g, L.Reset.Gradient X E G = .ok g ∧ g.wf ∧
      g.n_rows = L.outSize * L.inSize + L.outSize ∧ g.n_cols = 1 ∧
      (∀ i j, i < L.outSize → j < L.inSize →
        g.elem (L.Reset.weight.off + (i + j * L.Reset.weight.n_rows)) 0 =
          ∑ k ∈ Finset.range X.n_cols, E.elem i k * X.elem j k) ∧
      (∀ i, i < L.outSize →
        g.elem (L.outSize * L.inSize + i) 0 = ∑ k ∈ Finset.range X.n_cols, E.elem i k) := by
  have hW : 1 ≤ L.outSize * L.inSize := Nat.mul_pos hout hin
  have hwe : L.Reset.weight.n_elem = L.outSize * L.inSize := rfl
  -- error * input.t()
  have hP := Mat.mul_ok (show E.n_cols = X.t.n_rows from hb)
  generalize hPdef : Mat.ofFn E.n_rows X.t.n_cols
      (fun i k => ∑ j ∈ Finset.range E.n_cols, E.elem i j * X.t.elem j k) = P at hP
  have hPr : P.n_rows = L.outSize := by rw [← hPdef]; exact hEr
  have hPc : P.n_cols = L.inSize := by rw [← hPdef]; exact hXr
  have hPe : ∀ i j, i < L.outSize → j < L.inSize →
      P.elem i j = ∑ k ∈ Finset.range X.n_cols, E.elem i k * X.elem j k := by
    intro i j hi hj
    rw [← hPdef, Mat.elem_ofFn _ (by omega) (by simpa [Mat.t, Mat.ofFn, hXr] using hj), hb]
    apply Finset.sum_congr rfl
    intro k hk
    rw [Mat.elem_t X (Finset.mem_range.mp hk) (by omega)]
  -- gradient.submat(0, 0, weight.n_elem - 1, 0) = vectorise(...)
  obtain ⟨g1, hg1, _, hg1r, hg1c, hg1e⟩ :=
    Mat.submat_assign_spec G P.vectorise 0 0 (L.outSize * L.inSize - 1) 0
      (Nat.zero_le _) (Nat.le_refl 0)
      (by omega) (by omega)
      (by simp only [Mat.vectorise, hPr, hPc]; omega) (by simp [Mat.vectorise])
  -- gradient.submat(weight.n_elem, 0, gradient.n_elem - 1, 0) = sum(error, 1)
  have hne : g1.n_elem = L.outSize * L.inSize + L.outSize := by
    simp [Mat.n_elem, hg1r, hg1c, hGr, hGc]
  obtain ⟨g2, hg2, hg2wf, hg2r, hg2c, hg2e⟩ :=
    Mat.submat_assign_spec g1 E.sum1 (L.outSize * L.inSize) 0
      (L.outSize * L.inSize + L.outSize - 1) 0 (by omega) (Nat.le_refl 0)
      (by omega) (by omega)
      (by simp only [Mat.sum1, Mat.ofFn, hEr]; omega) (by simp [Mat.sum1, Mat.ofFn])
  refine ⟨g2, ?_, hg2wf, by omega, by omega, ?_, ?_⟩
  · simp only [NoisyLinear.Gradient, hP, bind, Except.bind, hwe, uword_pred_pos hW, hg1]
    rw [hne, uword_pred_pos (by omega), hg2]
  · intro i j hi hj
    have hlt : i + j * L.outSize < L.outSize * L.inSize := Mat.index_lt hi hj
    have hidx : L.Reset.weight.off + (i + j * L.Reset.weight.n_rows) = i + j * L.outSize := by
      simp [NoisyLinear.Reset]
    rw [hidx, hg2e _ 0 (by omega) (by omega), if_neg (by omega),
      hg1e _ 0 (by omega) (by omega), if_pos (by omega)]
    have hv := Mat.elem_vectorise P i j
    rw [hPr] at hv
    simp only [Nat.sub_zero]
    rw [hv, hPe i j hi hj]
  · intro i hi
    rw [hg2e _ 0 (by omega) (by omega), if_pos (by omega)]
    simp only [Nat.add_sub_cancel_left, Nat.sub_zero, Mat.sum1]
    rw [Mat.elem_ofFn _ (by omega) Nat.zero_lt_one, hb]

/-- C2. For `inSize >= 1` and `outSize >= 1`, after `Reset`, `Gradient` on an input `X`
(`inSize x b`), an error `E` (`outSize x b`) and a buffer of length
`outSize * inSize + outSize` succeeds; the entry at the flat index the Weight View
uses for element `(i, j)` is `sum_k E(i, k) * X(j, k)`, and the entry at
`outSize * inSize + i` is `sum_k E(i, k)`. -/
theorem NoisyLinear.Gradient_spec (L : NoisyLinear) (X E G : Mat)
    (hin : 1 ≤ L.inSize) (hout : 1 ≤ L.outSize)
    (hXr : X.n_rows = L.inSize) (hEr : E.n_rows = L.outSize) (hb : E.n_cols = X.n_cols)
    (hGr : G.n_rows = L.outSize * L.inSize + L.outSize) (hGc : G.n_cols = 1) :
    ∃ g, L.Reset.Gradient X E G = .ok g ∧ g.wf ∧
      g.n_rows = L.outSize * L.inSize + L.outSize ∧ g.n_cols = 1 ∧
      (∀ i j, i < L.outSize → j < L.inSize →
        g.elem (L.Reset.weight.off + (i + j * L.Reset.weight.n_rows)) 0 =
          ∑ k ∈ Finset.range X.n_cols, E.elem i k * X.elem j k) ∧
      (∀ i, i < L.outSize →
        g.elem (L.outSize * L.inSize + i) 0 = ∑ k ∈ Finset.range X.n_cols, E.elem i k) :=
  L.Gradient_Reset_entries X E G hin hout hXr hEr hb hGr hGc

/-- Witness for C2: `inSize = 2`, `outSize = 1`, one sample. -/
theorem NoisyLinear.Gradient_spec_witness :
    ∃ g, (NoisyLinear.mk 2 1 (Mat.colvec [1, 2, 1 / 2]) View.empty View.empty).Reset.Gradient
        (Mat.mk 2 1 [3, 4]) (Mat.mk 1 1 [5]) (Mat.colvec [0, 0, 0]) = .ok g ∧
      g.elem 0 0 = 15 ∧ g.elem 1 0 = 20 ∧ g.elem 2 0 = 5 := by
  obtain ⟨g, hg, _, _, _, hw, hbias⟩ :=
    NoisyLinear.Gradient_spec (NoisyLinear.mk 2 1 (Mat.colvec [1, 2, 1 / 2]) View.empty View.empty)
      (Mat.mk 2 1 [3, 4]) (Mat.mk 1 1 [5]) (Mat.colvec [0, 0, 0])
      (by decide) (by decide) rfl rfl rfl rfl rfl
  refine ⟨g, hg, ?_, ?_, ?_⟩
  · have h := hw 0 0 (by decide) (by decide)
    rw [show (15 : ℚ) = 5 * 3 by norm_num]
    simpa [NoisyLinear.Reset, Mat.elem, Finset.sum_range_succ] using h
  · have h := hw 0 1 (by decide) (by decide)
    rw [show (20 : ℚ) = 5 * 4 by norm_num]
    simpa [NoisyLinear.Reset, Mat.elem, Finset.sum_range_succ] using h
  · have h := hbias 0 (by decide)
    simpa [Mat.elem, Finset.sum_range_succ] using h

/-- C3. After `Reset`, `Backward` on a `gy` with `outSize` rows and `b` columns succeeds
with an `inSize x b` matrix whose entry `(j, k)` is `sum_i weight(i, j) * gy(i, k)`, and the
result is the same whatever the `input` argument is. -/
theorem NoisyLinear.Backward_spec (L : NoisyLinear) (input gy : Mat) (hL : L.Allocated)
    (hr : gy.n_rows = L.outSize) :
    L.Reset.weightMat.wf ∧
    (∃ g, L.Reset.Backward input gy = .ok g ∧ g.wf ∧ g.n_rows = L.inSize ∧
      g.n_cols = gy.n_cols ∧
      ∀ j k, j < L.inSize → k < gy.n_cols →
        g.elem j k = ∑ i ∈ Finset.range L.outSize, L.Reset.weightMat.elem i j * gy.elem i k) ∧
    ∀ input2 : Mat, L.Reset.Backward input2 gy = L.Reset.Backward input gy := by
  refine ⟨L.wf_weightMat_Reset hL, ?_, fun _ => rfl⟩
  have hm : L.Reset.weightMat.t.n_cols = gy.n_rows := hr.symm
  refine ⟨_, Mat.mul_ok hm, Mat.wf_ofFn _ _ _, rfl, rfl, ?_⟩
  intro j k hj hk
  have hj2 : j < L.Reset.weightMat.t.n_rows := hj
  rw [Mat.elem_ofFn _ hj2 hk]
  rw [show L.Reset.weightMat.t.n_cols = L.outSize from rfl]
  apply Finset.sum_congr rfl
  intro i hi
  rw [Mat.elem_t _ hj (Finset.mem_range.mp hi)]

/-- Witness for C3: `inSize = 2`, `outSize = 1`, weight `[1, 2]`, `gy = [5]`, and two
different `input` arguments. -/
theorem NoisyLinear.Backward_spec_witness :
    ∃ g, (NoisyLinear.mk 2 1 (Mat.colvec [1, 2, 1 / 2]) View.empty View.empty).Reset.Backward
        (Mat.mk 2 1 [3, 4]) (Mat.mk 1 1 [5]) = .ok g ∧
      g.n_rows = 2 ∧ g.n_cols = 1 ∧ g.elem 0 0 = 5 ∧ g.elem 1 0 = 10 ∧
      (NoisyLinear.mk 2 1 (Mat.colvec [1, 2, 1 / 2]) View.empty View.empty).Reset.Backward
        Mat.empty (Mat.mk 1 1 [5]) = .ok g := by
  have hL : (NoisyLinear.mk 2 1 (Mat.colvec [1, 2, 1 / 2]) View.empty View.empty).Allocated := by
    simp [NoisyLinear.Allocated, Mat.colvec, Mat.wf]
  obtain ⟨_, ⟨g, hg, _, h1, h2, h3⟩, h4⟩ :=
    NoisyLinear.Backward_spec (NoisyLinear.mk 2 1 (Mat.colvec [1, 2, 1 / 2]) View.empty View.empty)
      (Mat.mk 2 1 [3, 4]) (Mat.mk 1 1 [5]) hL rfl
  refine ⟨g, hg, h1, h2, ?_, ?_, ?_⟩
  · rw [h3 0 0 (by decide) (by decide)]
    simp [Finset.sum_range_succ, NoisyLinear.weightMat, NoisyLinear.Reset, View.read, Mat.elem,
      Mat.colvec]
  · rw [h3 1 0 (by decide) (by decide), show (10 : ℚ) = 2 * 5 by norm_num]
    simp [Finset.sum_range_succ, NoisyLinear.weightMat, NoisyLinear.Reset, View.read, Mat.elem,
      Mat.colvec]
  · rw [h4 Mat.empty, hg]

/-! ## NoisyLinear: the parameter block and its views -/

theorem Mat.length_set_size_empty (n : Nat) (junk : Nat → ℚ) :
    (Mat.empty.set_size n 1 junk).mem.length = n := by
  unfold Mat.set_size
  split
  · rename_i h
    simp only [Mat.n_elem, Mat.empty, Nat.mul_one, Nat.zero_mul] at h
    simp [Mat.empty, ← h]
  · simp

theorem Mat.n_rows_set_size (m : Mat) (r c : Nat) (junk : Nat → ℚ) :
    (m.set_size r c junk).n_rows = r := by
  unfold Mat.set_size; split <;> rfl

theorem Mat.n_cols_set_size (m : Mat) (r c : Nat) (junk : Nat → ℚ) :
    (m.set_size r c junk).n_cols = c := by
  unfold Mat.set_size; split <;> rfl

/-- The constructor leaves a block of the shape `Allocated` asks for, when the block
length fits a `size_t`. -/
theorem NoisyLinear.Allocated_new (inSize outSize : Nat) (junk : Nat → ℚ)
    (hfit : outSize * inSize + outSize < 2 ^ 64) :
    (NoisyLinear.new inSize outSize junk).Allocated := by
  have hmod : (outSize * inSize + outSize) % 2 ^ 64 = outSize * inSize + outSize :=
    Nat.mod_eq_of_lt hfit
  refine ⟨?_, Mat.n_cols_set_size _ _ _ _, ?_⟩
  · show (Mat.empty.set_size ((outSize * inSize + outSize) % 2 ^ 64) 1 junk).n_rows = _
    rw [Mat.n_rows_set_size, hmod]
    rfl
  · simp only [Mat.wf, NoisyLinear.new, Mat.n_rows_set_size, Mat.n_cols_set_size,
      Mat.length_set_size_empty, Nat.mul_one]

/-- The block the constructor allocates has `(outSize * inSize + outSize) mod 2^64`
elements, for all sizes. -/
theorem NoisyLinear.length_new (inSize outSize : Nat) (junk : Nat → ℚ) :
    (NoisyLinear.new inSize outSize junk).weights.mem.length
      = (outSize * inSize + outSize) % 2 ^ 64 :=
  Mat.length_set_size_empty _ _

/-- C4, as amended. When `outSize * inSize + outSize` fits a `size_t` (is below `2^64`),
after `NoisyLinear(inSize, outSize)` and `Reset` the parameter block has exactly
`outSize * inSize + outSize` elements, the Weight View has `outSize` rows and `inSize`
columns, and the Bias View has length `outSize`. -/
theorem NoisyLinear.shape_after_new_Reset (inSize outSize : Nat) (junk : Nat → ℚ)
    (hfit : outSize * inSize + outSize < 2 ^ 64) :
    (NoisyLinear.new inSize outSize junk).Reset.weights.n_elem = outSize * inSize + outSize ∧
    (NoisyLinear.new inSize outSize junk).Reset.weights.mem.length
      = outSize * inSize + outSize ∧
    (NoisyLinear.new inSize outSize junk).Reset.weightMat.n_rows = outSize ∧
    (NoisyLinear.new inSize outSize junk).Reset.weightMat.n_cols = inSize ∧
    (NoisyLinear.new inSize outSize junk).Reset.weightMat.wf ∧
    (NoisyLinear.new inSize outSize junk).Reset.biasMat.n_rows = outSize ∧
    (NoisyLinear.new inSize outSize junk).Reset.biasMat.n_cols = 1 ∧
    (NoisyLinear.new inSize outSize junk).Reset.biasMat.mem.length = outSize := by
  have hA := NoisyLinear.Allocated_new inSize outSize junk hfit
  have hb := NoisyLinear.wf_biasMat_Reset _ hA
  refine ⟨?_, hA.length, rfl, rfl, NoisyLinear.wf_weightMat_Reset _ hA, rfl, rfl, ?_⟩
  · show (NoisyLinear.new inSize outSize junk).weights.n_rows
      * (NoisyLinear.new inSize outSize junk).weights.n_cols = _
    rw [hA.1, hA.2.1, Nat.mul_one]
    rfl
  · rw [Mat.wf] at hb
    rw [hb]
    show outSize * 1 = outSize
    omega

/-- Witness for C4 as amended: `NoisyLinear(2, 3)` has a block of `3 * 2 + 3 = 9` elements,
a `3 x 2` Weight View and a Bias View of length `3`. -/
theorem NoisyLinear.shape_after_new_Reset_witness :
    (NoisyLinear.new 2 3 (fun _ => 0)).Reset.weights.mem.length = 9 ∧
    (NoisyLinear.new 2 3 (fun _ => 0)).Reset.weightMat.n_rows = 3 ∧
    (NoisyLinear.new 2 3 (fun _ => 0)).Reset.weightMat.n_cols = 2 ∧
    (NoisyLinear.new 2 3 (fun _ => 0)).Reset.biasMat.mem.length = 3 := by
  obtain ⟨_, h2, h3, h4, _, _, _, h8⟩ :=
    NoisyLinear.shape_after_new_Reset 2 3 (fun _ => 0) (by norm_num)
  exact ⟨h2, h3, h4, h8⟩

/-- Counterexample to C4 as stated: for `NoisyLinear(2^63, 2)` the `size_t` expression
`2 * 2^63 + 2` wraps to `2`, so the block has `2` elements, not `2^64 + 2`. -/
theorem NoisyLinear.new_wraps_counterexample :
    (NoisyLinear.new (2 ^ 63) 2 (fun _ => 0)).Reset.weights.mem.length = 2 ∧
    (NoisyLinear.new (2 ^ 63) 2 (fun _ => 0)).Reset.weights.n_elem = 2 ∧
    (NoisyLinear.new (2 ^ 63) 2 (fun _ => 0)).Reset.weights.mem.length
      ≠ 2 * 2 ^ 63 + 2 := by
  have h : (NoisyLinear.new (2 ^ 63) 2 (fun _ => 0)).weights.mem.length = 2 := by
    rw [NoisyLinear.length_new]; norm_num
  have hr : (NoisyLinear.new (2 ^ 63) 2 (fun _ => 0)).weights.n_rows = 2 := by
    show (Mat.empty.set_size ((2 * 2 ^ 63 + 2) % 2 ^ 64) 1 (fun _ => 0)).n_rows = 2
    rw [Mat.n_rows_set_size]; norm_num
  have hc : (NoisyLinear.new (2 ^ 63) 2 (fun _ => 0)).weights.n_cols = 1 :=
    Mat.n_cols_set_size _ _ _ _
  refine ⟨h, ?_, ?_⟩
  · show (NoisyLinear.new (2 ^ 63) 2 (fun _ => 0)).weights.n_rows
      * (NoisyLinear.new (2 ^ 63) 2 (fun _ => 0)).weights.n_cols = 2
    rw [hr, hc]
  · show (NoisyLinear.new (2 ^ 63) 2 (fun _ => 0)).weights.mem.length ≠ _
    rw [h]; norm_num

theorem List.getD_set_of_lt (l : List ℚ) {t : Nat} (k : Nat) (x : ℚ) (ht : t < l.length) :
    (l.set t x).getD k 0 = if t = k then x else l.getD k 0 := by
  simp only [List.getD_eq_getElem?_getD, List.getElem?_set, ht, if_true]
  split <;> rfl

/-- Weight View element `(i, j)` as a block element, for any block contents. -/
theorem NoisyLinear.weight_elem_Reset (L : NoisyLinear) {i j : Nat} (hi : i < L.outSize)
    (hj : j < L.inSize) :
    L.Reset.weightMat.elem i j = L.weights.mem.getD (j * L.outSize + i) 0 := by
  have h := @View.elem_read L.Reset.weight L.Reset.weights i j hi hj
  rw [NoisyLinear.weightMat, h]
  show L.weights.mem.getD (0 + (i + j * L.outSize)) 0 = _
  congr 1
  omega

/-- Bias View element `i` as a block element, for any block contents. -/
theorem NoisyLinear.bias_elem_Reset (L : NoisyLinear) {i : Nat} (hi : i < L.outSize) :
    L.Reset.biasMat.elem i 0 = L.weights.mem.getD (L.outSize * L.inSize + i) 0 := by
  have h := @View.elem_read L.Reset.bias L.Reset.weights i 0 hi Nat.zero_lt_one
  rw [NoisyLinear.biasMat, h]
  show L.weights.mem.getD (0 + L.outSize * L.inSize + (i + 0 * L.outSize)) 0 = _
  congr 1
  omega

/-- C5. After `Reset`, Weight View element `(i, j)` is block element `j * outSize + i` and
Bias View element `i` is block element `outSize * inSize + i`.  The views hold no copy:
a store into block element `t` shows in exactly the view element bound to `t`, and a
store into a view element changes exactly the block element it is bound to. -/
theorem NoisyLinear.views_alias_block (L : NoisyLinear) (hL : L.Allocated) :
    (∀ i j, i < L.outSize → j < L.inSize →
      j * L.outSize + i < L.outSize * L.inSize ∧
      L.Reset.weightMat.elem i j = L.Reset.weights.elem (j * L.outSize + i) 0) ∧
    (∀ i, i < L.outSize →
      L.outSize * L.inSize + i < L.Reset.weights.n_rows ∧
      L.Reset.biasMat.elem i 0 = L.Reset.weights.elem (L.outSize * L.inSize + i) 0) ∧
    (∀ t x, t < L.Reset.weights.n_rows →
      (∀ i j, i < L.outSize → j < L.inSize →
        ({ L.Reset with weights := L.Reset.weights.write t x } : NoisyLinear).weightMat.elem i j
          = if t = j * L.outSize + i then x else L.Reset.weightMat.elem i j) ∧
      (∀ i, i < L.outSize →
        ({ L.Reset with weights := L.Reset.weights.write t x } : NoisyLinear).biasMat.elem i 0
          = if t = L.outSize * L.inSize + i then x else L.Reset.biasMat.elem i 0)) ∧
    (∀ i j x, i < L.outSize → j < L.inSize → ∀ t,
      (L.Reset.weight.write L.Reset.weights i j x).elem t 0
        = if j * L.outSize + i = t then x else L.Reset.weights.elem t 0) ∧
    (∀ i x, i < L.outSize → ∀ t,
      (L.Reset.bias.write L.Reset.weights i 0 x).elem t 0
        = if L.outSize * L.inSize + i = t then x else L.Reset.weights.elem t 0) := by
  have hlen := hL.length
  have hrows : L.Reset.weights.n_rows = L.outSize * L.inSize + L.outSize := hL.1
  have hblk : ∀ (B : Mat) (t : Nat), B.elem t 0 = B.mem.getD t 0 := by
    intro B t; simp [Mat.elem]
  refine ⟨?_, ?_, ?_, ?_, ?_⟩
  · intro i j hi hj
    have h := Mat.index_lt hi hj
    refine ⟨by omega, ?_⟩
    rw [hblk L.Reset.weights, L.weight_elem_Reset hi hj]
    rfl
  · intro i hi
    refine ⟨by omega, ?_⟩
    rw [hblk L.Reset.weights, L.bias_elem_Reset hi]
    rfl
  · intro t x ht
    have htl : t < L.weights.mem.length := by omega
    refine ⟨?_, ?_⟩
    · intro i j hi hj
      have h1 := NoisyLinear.weight_elem_Reset { L with weights := L.weights.write t x } hi hj
      have h2 := L.weight_elem_Reset hi hj
      have e : ({ L.Reset with weights := L.Reset.weights.write t x } : NoisyLinear)
          = NoisyLinear.Reset { L with weights := L.weights.write t x } := rfl
      rw [e, h1, h2]
      exact List.getD_set_of_lt _ _ _ htl
    · intro i hi
      have h1 := NoisyLinear.bias_elem_Reset { L with weights := L.weights.write t x } hi
      have h2 := L.bias_elem_Reset hi
      have e : ({ L.Reset with weights := L.Reset.weights.write t x } : NoisyLinear)
          = NoisyLinear.Reset { L with weights := L.weights.write t x } := rfl
      rw [e, h1, h2]
      exact List.getD_set_of_lt _ _ _ htl
  · intro i j x hi hj t
    have h := Mat.index_lt hi hj
    rw [hblk, hblk]
    have e : (L.Reset.weight.write L.Reset.weights i j x).mem
        = L.weights.mem.set (j * L.outSize + i) x := by
      show L.weights.mem.set (0 + (i + j * L.outSize)) x = _
      congr 1
      omega
    rw [e]
    exact List.getD_set_of_lt _ _ _ (by omega)
  · intro i x hi t
    rw [hblk, hblk]
    have e : (L.Reset.bias.write L.Reset.weights i 0 x).mem
        = L.weights.mem.set (L.outSize * L.inSize + i) x := by
      show L.weights.mem.set (0 + L.outSize * L.inSize + (i + 0 * L.outSize)) x = _
      congr 1
      omega
    rw [e]
    exact List.getD_set_of_lt _ _ _ (by omega)

/-- Witness for C5: `inSize = 2`, `outSize = 1`, block `[1, 2, 1/2]`; a store of `7` into
block element `1` is seen as Weight View element `(0, 1)`. -/
theorem NoisyLinear.views_alias_block_witness :
    (NoisyLinear.mk 2 1 (Mat.colvec [1, 2, 1 / 2]) View.empty View.empty).Reset.weightMat.elem 0 1
      = 2 ∧
    ({ (NoisyLinear.mk 2 1 (Mat.colvec [1, 2, 1 / 2]) View.empty View.empty).Reset with
        weights := (NoisyLinear.mk 2 1 (Mat.colvec [1, 2, 1 / 2]) View.empty
          View.empty).Reset.weights.write 1 7 } : NoisyLinear).weightMat.elem 0 1 = 7 := by
  have hL : (NoisyLinear.mk 2 1 (Mat.colvec [1, 2, 1 / 2]) View.empty View.empty).Allocated := by
    simp [NoisyLinear.Allocated, Mat.colvec, Mat.wf]
  obtain ⟨h1, _, h3, _, _⟩ := NoisyLinear.views_alias_block
    (NoisyLinear.mk 2 1 (Mat.colvec [1, 2, 1 / 2]) View.empty View.empty) hL
  refine ⟨?_, ?_⟩
  · rw [(h1 0 1 (by decide) (by decide)).2]
    simp [NoisyLinear.Reset, Mat.elem, Mat.colvec]
  · rw [(h3 1 7 (by decide)).1 0 1 (by decide) (by decide)]
    simp

/-! ## NoisyLinear: serialization -/

theorem NoisyLinear.serialize_save_eq (ar : Archive) (L : NoisyLinear) (junk : Nat → ℚ) :
    serialize false ar L junk = .ok (⟨ar.fields ++ [L.inSize, L.outSize]⟩, L) := by
  simp [serialize, Archive.amp, bind, Except.bind]

theorem NoisyLinear.serialize_load_eq (a b : Nat) (rest : List Nat) (L : NoisyLinear)
    (junk : Nat → ℚ) :
    serialize true ⟨a :: b :: rest⟩ L junk = .ok (⟨rest⟩,
      { L with inSize := a, outSize := b,
               weights := L.weights.set_size ((b * a + b) % 2 ^ 64) 1 junk }) := by
  simp [serialize, Archive.amp, bind, Except.bind]

theorem Mat.length_set_size (m : Mat) (hm : m.wf) (n : Nat) (junk : Nat → ℚ) :
    (m.set_size n 1 junk).mem.length = n := by
  unfold Mat.set_size
  split
  · rename_i h
    rw [Mat.n_elem, Nat.mul_one] at h
    show m.mem.length = n
    rw [hm, h]
  · simp

/-- C9, as amended. Saving a layer and loading the archive into another layer restores
`inSize` and `outSize` and resizes the block to the saved block's shape, so that `Reset`
binds views of the saved shapes at the saved positions.  The block contents are not
archived: the views show the saved contents whenever the loaded block holds them.  The
saved block length is one that fits a `size_t`. -/
theorem NoisyLinear.serialize_roundtrip (A B : NoisyLinear) (junk : Nat → ℚ)
    (hA : A.Allocated) (hB : B.weights.wf)
    (hfit : A.outSize * A.inSize + A.outSize < 2 ^ 64) :
    ∃ ar B1, serialize false ⟨[]⟩ A junk = .ok (ar, A) ∧
      serialize true ar B junk = .ok (⟨[]⟩, B1) ∧
      B1.inSize = A.inSize ∧ B1.outSize = A.outSize ∧
      B1.weights.n_rows = A.weights.n_rows ∧ B1.weights.n_cols = A.weights.n_cols ∧
      B1.weights.mem.length = A.weights.mem.length ∧
      B1.Reset.weight = A.Reset.weight ∧ B1.Reset.bias = A.Reset.bias ∧
      (B1.weights.mem = A.weights.mem →
        B1.Reset.weightMat = A.Reset.weightMat ∧ B1.Reset.biasMat = A.Reset.biasMat) := by
  refine ⟨_, _, NoisyLinear.serialize_save_eq _ A junk,
    NoisyLinear.serialize_load_eq A.inSize A.outSize [] B junk, rfl, rfl, ?_, ?_, ?_, rfl, rfl, ?_⟩
  · rw [hA.1]
    exact (Mat.n_rows_set_size _ _ _ _).trans (Nat.mod_eq_of_lt hfit)
  · rw [hA.2.1]; exact Mat.n_cols_set_size _ _ _ _
  · rw [hA.length]
    exact (Mat.length_set_size _ hB _ _).trans (Nat.mod_eq_of_lt hfit)
  · intro h
    simp only [NoisyLinear.weightMat, NoisyLinear.biasMat, NoisyLinear.Reset, View.read] at h ⊢
    rw [h]
    exact ⟨rfl, rfl⟩

/-- Witness for C9 as amended: a `1 x 1` layer with block `[1, 2]` saved and loaded into a
layer whose block already holds `[1, 2]`. -/
theorem NoisyLinear.serialize_roundtrip_witness :
    ∃ ar B1,
      serialize false ⟨[]⟩ (NoisyLinear.mk 1 1 (Mat.colvec [1, 2]) View.empty View.empty)
        (fun _ => 0)
        = .ok (ar, NoisyLinear.mk 1 1 (Mat.colvec [1, 2]) View.empty View.empty) ∧
      serialize true ar (NoisyLinear.mk 1 1 (Mat.colvec [1, 2]) View.empty View.empty)
        (fun _ => 0) = .ok (⟨[]⟩, B1) ∧
      B1.Reset.weightMat = Mat.mk 1 1 [1] ∧ B1.Reset.biasMat = Mat.mk 1 1 [2] := by
  have hA : (NoisyLinear.mk 1 1 (Mat.colvec [1, 2]) View.empty View.empty).Allocated := by
    simp [NoisyLinear.Allocated, Mat.colvec, Mat.wf]
  have hB : (NoisyLinear.mk 1 1 (Mat.colvec [1, 2]) View.empty View.empty).weights.wf := hA.2.2
  obtain ⟨ar, B1, h1, h2, _, _, _, _, _, _, _, h3⟩ :=
    NoisyLinear.serialize_roundtrip
      (NoisyLinear.mk 1 1 (Mat.colvec [1, 2]) View.empty View.empty)
      (NoisyLinear.mk 1 1 (Mat.colvec [1, 2]) View.empty View.empty) (fun _ => 0) hA hB
      (by norm_num)
  have har : ar = ⟨[1, 1]⟩ := by
    rw [NoisyLinear.serialize_save_eq] at h1
    injection h1 with h1
    injection h1 with h1 _
    exact h1.symm
  have hB1 : B1.weights.mem = [1, 2] := by
    rw [har, NoisyLinear.serialize_load_eq] at h2
    injection h2 with h2
    injection h2 with _ h2
    rw [← h2]
    simp [Mat.set_size, Mat.n_elem, Mat.colvec]
  obtain ⟨hw, hb⟩ := h3 hB1
  refine ⟨ar, B1, h1, h2, ?_, ?_⟩
  · rw [hw]; simp [NoisyLinear.weightMat, NoisyLinear.Reset, View.read, Mat.colvec]
  · rw [hb]; simp [NoisyLinear.biasMat, NoisyLinear.Reset, View.read, View.n_elem, Mat.colvec]

/-- Counterexample to C9 as stated: a `1 x 1` layer with block `[1, 2]` is saved and the
archive is loaded into a freshly constructed `1 x 1` layer whose block holds `[0, 0]`.
After `Reset` the loaded layer's views show `0` and `0`, not `1` and `2`. -/
theorem NoisyLinear.serialize_roundtrip_counterexample :
    ∃ ar B1,
      serialize false ⟨[]⟩ (NoisyLinear.mk 1 1 (Mat.colvec [1, 2]) View.empty View.empty).Reset
        (fun _ => 0)
        = .ok (ar, (NoisyLinear.mk 1 1 (Mat.colvec [1, 2]) View.empty View.empty).Reset) ∧
      serialize true ar (NoisyLinear.new 1 1 (fun _ => 0)) (fun _ => 0) = .ok (⟨[]⟩, B1) ∧
      (NoisyLinear.mk 1 1 (Mat.colvec [1, 2]) View.empty View.empty).Reset.weightMat
        = Mat.mk 1 1 [1] ∧
      (NoisyLinear.mk 1 1 (Mat.colvec [1, 2]) View.empty View.empty).Reset.biasMat
        = Mat.mk 1 1 [2] ∧
      B1.Reset.weightMat = Mat.mk 1 1 [0] ∧ B1.Reset.biasMat = Mat.mk 1 1 [0] ∧
      B1.Reset.weightMat ≠
        (NoisyLinear.mk 1 1 (Mat.colvec [1, 2]) View.empty View.empty).Reset.weightMat ∧
      B1.Reset.biasMat ≠
        (NoisyLinear.mk 1 1 (Mat.colvec [1, 2]) View.empty View.empty).Reset.biasMat := by
  refine ⟨_, _, NoisyLinear.serialize_save_eq _ _ _,
    NoisyLinear.serialize_load_eq 1 1 [] _ _, ?_, ?_, ?_, ?_, ?_, ?_⟩ <;>
  simp [NoisyLinear.weightMat, NoisyLinear.biasMat, NoisyLinear.Reset, NoisyLinear.new,
    View.read, View.n_elem, Mat.colvec, Mat.set_size, Mat.n_elem, Mat.empty, List.range_succ]

/-- C10, as amended. Loading sets `inSize` and `outSize` to the archived values and, when
`outSize * inSize + outSize` fits a `size_t` (is below `2^64`), leaves a block of
exactly that many elements, whatever the layer held before; saving leaves `inSize`,
`outSize` and the block as they were. -/
theorem NoisyLinear.serialize_spec (L : NoisyLinear) (hL : L.weights.wf) (a b : Nat)
    (rest : List Nat) (ar : Archive) (junk : Nat → ℚ) (hfit : b * a + b < 2 ^ 64) :
    (∃ L1, serialize true ⟨a :: b :: rest⟩ L junk = .ok (⟨rest⟩, L1) ∧
      L1.inSize = a ∧ L1.outSize = b ∧
      L1.weights.n_elem = b * a + b ∧ L1.weights.mem.length = b * a + b ∧
      L1.weights.n_rows = b * a + b ∧ L1.weights.n_cols = 1) ∧
    (∃ ar1 L1, serialize false ar L junk = .ok (ar1, L1) ∧
      L1.inSize = L.inSize ∧ L1.outSize = L.outSize ∧ L1.weights = L.weights) := by
  have hmod : (b * a + b) % 2 ^ 64 = b * a + b := Nat.mod_eq_of_lt hfit
  have hlen := (Mat.length_set_size L.weights hL ((b * a + b) % 2 ^ 64) junk).trans hmod
  have hrow := (Mat.n_rows_set_size L.weights ((b * a + b) % 2 ^ 64) 1 junk).trans hmod
  refine ⟨⟨_, NoisyLinear.serialize_load_eq a b rest L junk, rfl, rfl, ?_,
    hlen, hrow, Mat.n_cols_set_size _ _ _ _⟩,
    ⟨_, _, NoisyLinear.serialize_save_eq ar L junk, rfl, rfl, rfl⟩⟩
  show (L.weights.set_size ((b * a + b) % 2 ^ 64) 1 junk).n_rows
    * (L.weights.set_size ((b * a + b) % 2 ^ 64) 1 junk).n_cols = b * a + b
  rw [Mat.n_rows_set_size, Mat.n_cols_set_size, Nat.mul_one, hmod]

/-- Counterexample to C10 as stated: loading the archived pair `(2^63, 2)` into a
default-constructed layer sets `inSize = 2^63` and `outSize = 2`, and resizes the block
to the wrapped value of `2 * 2^63 + 2`, which is `2`, not `2^64 + 2`. -/
theorem NoisyLinear.serialize_wraps_counterexample :
    ∃ L1, serialize true ⟨[2 ^ 63, 2]⟩ NoisyLinear.default (fun _ => 0) = .ok (⟨[]⟩, L1) ∧
      L1.inSize = 2 ^ 63 ∧ L1.outSize = 2 ∧ L1.weights.mem.length = 2 ∧
      L1.weights.mem.length ≠ L1.outSize * L1.inSize + L1.outSize := by
  have hL : NoisyLinear.default.weights.wf := by
    simp [NoisyLinear.default, Mat.empty, Mat.wf]
  have h2 : (2 * 2 ^ 63 + 2) % 2 ^ 64 = 2 := by norm_num
  have hlen := (Mat.length_set_size NoisyLinear.default.weights hL
    ((2 * 2 ^ 63 + 2) % 2 ^ 64) (fun _ => 0)).trans h2
  refine ⟨_, NoisyLinear.serialize_load_eq (2 ^ 63) 2 [] _ _, rfl, rfl, hlen, ?_⟩
  show (NoisyLinear.default.weights.set_size ((2 * 2 ^ 63 + 2) % 2 ^ 64) 1
    (fun _ => 0)).mem.length ≠ 2 * 2 ^ 63 + 2
  rw [hlen]; norm_num

/-- Witness for C10: the archive `[2, 3]` loaded into a default-constructed layer. -/
theorem NoisyLinear.serialize_spec_witness :
    ∃ L1, serialize true ⟨[2, 3]⟩ NoisyLinear.default (fun _ => 0) = .ok (⟨[]⟩, L1) ∧
      L1.inSize = 2 ∧ L1.outSize = 3 ∧ L1.weights.mem.length = 9 := by
  have hL : NoisyLinear.default.weights.wf := by
    simp [NoisyLinear.default, Mat.empty, Mat.wf]
  obtain ⟨⟨L1, h1, h2, h3, _, h4, _, _⟩, _⟩ :=
    NoisyLinear.serialize_spec NoisyLinear.default hL 2 3 [] ⟨[]⟩ (fun _ => 0) (by norm_num)
  exact ⟨L1, h1, h2, h3, h4⟩

/-! ## DuelingDQN: Predict, Forward, Backward -/

/-- C6, the code at a failing input. For the default architecture with three actions and
one state, `Predict` hands back whatever `actionValue` held: the empty matrix stays
empty and `[9, 9, 9]` stays `[9, 9, 9]`, so the result is not a function of the state.
The specified combination of advantage `[1, 3, 5]` and value `2` is `[0, 2, 4]`. -/
theorem DuelingDQN.Predict_at_failing_input :
    ((DuelingDQN.new 4 8 4 3).Predict (Mat.mk 4 1 [0, 0, 0, 0]) Mat.empty).2 = Mat.empty ∧
    ((DuelingDQN.new 4 8 4 3).Predict (Mat.mk 4 1 [0, 0, 0, 0]) (Mat.mk 3 1 [9, 9, 9])).2
      = Mat.mk 3 1 [9, 9, 9] ∧
    spec_actionValue (Mat.mk 3 1 [1, 3, 5]) (Mat.mk 1 1 [2]) = Mat.mk 3 1 [0, 2, 4] ∧
    col_mean (Mat.mk 3 1 [0, 2, 4]) 0 = 2 := by
  refine ⟨rfl, rfl, ?_, ?_⟩
  · simp [spec_actionValue, col_mean, Mat.ofFn, Mat.elem, List.range_succ,
      Finset.sum_range_succ]
    norm_num
  · simp [col_mean, Mat.elem, Finset.sum_range_succ]
    norm_num

/-- C7, the code at a failing input. For `DuelingDQN(4, 8, 4, 2)` and a `4 x 5` batch,
`Forward` hands back the `output` it was given (here `1 x 1`, not `2 x 5`) and the
cached `networkOutput` and `features` stay empty. -/
theorem DuelingDQN.Forward_at_failing_input :
    ((DuelingDQN.new 4 8 4 2).Forward (Mat.ofFn 4 5 (fun _ _ => 1)) (Mat.mk 1 1 [7])).2
      = Mat.mk 1 1 [7] ∧
    ((DuelingDQN.new 4 8 4 2).Forward (Mat.ofFn 4 5 (fun _ _ => 1)) (Mat.mk 1 1 [7])).1.networkOutput
      = Mat.empty ∧
    ((DuelingDQN.new 4 8 4 2).Forward (Mat.ofFn 4 5 (fun _ _ => 1)) (Mat.mk 1 1 [7])).1.features
      = Mat.empty ∧
    ((DuelingDQN.new 4 8 4 2).Forward (Mat.ofFn 4 5 (fun _ _ => 1)) (Mat.mk 1 1 [7])).1.networkOutput
      ≠ ((DuelingDQN.new 4 8 4 2).Forward (Mat.ofFn 4 5 (fun _ _ => 1)) (Mat.mk 1 1 [7])).2 := by
  refine ⟨rfl, rfl, rfl, ?_⟩
  simp [DuelingDQN.Forward, DuelingDQN.new, Mat.empty]

/-- C8, the code at a failing input. After `Forward`, `Backward` hands back the `gradient`
it was given, for two different prior contents of the buffer and the same state and
target, so nothing has been written to it. -/
theorem DuelingDQN.Backward_at_failing_input :
    (((DuelingDQN.new 4 8 4 2).Forward (Mat.ofFn 4 1 (fun _ _ => 1)) Mat.empty).1.Backward
      (Mat.ofFn 4 1 (fun _ _ => 1)) (Mat.mk 2 1 [1, 0]) (Mat.mk 2 1 [3, 4])).2.2
      = Mat.mk 2 1 [3, 4] ∧
    (((DuelingDQN.new 4 8 4 2).Forward (Mat.ofFn 4 1 (fun _ _ => 1)) Mat.empty).1.Backward
      (Mat.ofFn 4 1 (fun _ _ => 1)) (Mat.mk 2 1 [1, 0]) (Mat.mk 2 1 [5, 6])).2.2
      = Mat.mk 2 1 [5, 6] := by
  exact ⟨rfl, rfl⟩

/-! ## NoisyLinear: empty sizes, empty batches, unbound views, mismatched shapes -/

/-- C11, the code at a failing input. For `NoisyLinear(0, 1)` after `Reset`, an input of
shape `0 x 1`, an error of shape `1 x 1` and a buffer of length `0 * 1 + 1 = 1`:
`Backward` succeeds with a `0 x 1` result, but `Gradient` fails, because
`weight.n_elem - 1` wraps to `2^64 - 1` and the first `submat` range leaves the buffer.
The same happens for `NoisyLinear(2, 0)` with its buffer of length `0`. -/
theorem NoisyLinear.Gradient_fails_at_zero_size :
    (NoisyLinear.new 0 1 (fun _ => 0)).Reset.Backward (Mat.mk 0 1 []) (Mat.mk 1 1 [5])
      = .ok (Mat.mk 0 1 []) ∧
    (NoisyLinear.new 0 1 (fun _ => 0)).Reset.weights.mem.length = 1 ∧
    (NoisyLinear.new 0 1 (fun _ => 0)).Reset.Gradient (Mat.mk 0 1 []) (Mat.mk 1 1 [5])
      (Mat.colvec [0]) = .error .logic_error ∧
    (NoisyLinear.new 2 0 (fun _ => 0)).Reset.Gradient (Mat.mk 2 1 [3, 4]) (Mat.mk 0 1 [])
      (Mat.colvec []) = .error .logic_error := by
  refine ⟨?_, ?_, ?_, ?_⟩
  · simp [NoisyLinear.Backward, NoisyLinear.weightMat, NoisyLinear.Reset, NoisyLinear.new,
      View.read, Mat.t, Mat.mul, Mat.ofFn]
  · simp [NoisyLinear.Reset, NoisyLinear.new, Mat.set_size, Mat.n_elem, Mat.empty]
  · simp [NoisyLinear.Gradient, NoisyLinear.Reset, NoisyLinear.new, View.n_elem, Mat.t,
      Mat.mul, Mat.ofFn, Mat.submat_assign, Mat.colvec, uword_pred, bind, Except.bind]
  · simp [NoisyLinear.Gradient, NoisyLinear.Reset, NoisyLinear.new, View.n_elem, Mat.t,
      Mat.mul, Mat.ofFn, Mat.submat_assign, Mat.colvec, uword_pred, bind, Except.bind]

/-- C12, the code at a failing input. For `NoisyLinear(0, 1)` after `Reset` and a batch of
zero columns (input `0 x 0`, error `1 x 0`, buffer of length `1`): `Forward` returns a
`1 x 0` matrix and `Backward` a `0 x 0` matrix, but `Gradient` fails, because
`weight.n_elem - 1` wraps to `2^64 - 1`. -/
theorem NoisyLinear.zero_batch_at_zero_size :
    (NoisyLinear.new 0 1 (fun _ => 0)).Reset.Forward (Mat.mk 0 0 []) = .ok (Mat.mk 1 0 []) ∧
    (NoisyLinear.new 0 1 (fun _ => 0)).Reset.Backward (Mat.mk 0 0 []) (Mat.mk 1 0 [])
      = .ok (Mat.mk 0 0 []) ∧
    (NoisyLinear.new 0 1 (fun _ => 0)).Reset.Gradient (Mat.mk 0 0 []) (Mat.mk 1 0 [])
      (Mat.colvec [0]) = .error .logic_error := by
  refine ⟨?_, ?_, ?_⟩
  · simp [NoisyLinear.Forward, NoisyLinear.weightMat, NoisyLinear.biasMat, NoisyLinear.Reset,
      NoisyLinear.new, View.read, View.n_elem, Mat.mul, Mat.each_col_add, Mat.ofFn, bind,
      Except.bind]
  · simp [NoisyLinear.Backward, NoisyLinear.weightMat, NoisyLinear.Reset, NoisyLinear.new,
      View.read, Mat.t, Mat.mul, Mat.ofFn]
  · simp [NoisyLinear.Gradient, NoisyLinear.Reset, NoisyLinear.new, View.n_elem, Mat.t,
      Mat.mul, Mat.ofFn, Mat.submat_assign, Mat.colvec, uword_pred, bind, Except.bind]

theorem NoisyLinear.weightMat_new (inSize outSize : Nat) (junk : Nat → ℚ) :
    (NoisyLinear.new inSize outSize junk).weightMat = Mat.mk 0 0 [] := by
  simp [NoisyLinear.weightMat, NoisyLinear.new, View.read, View.empty]

theorem NoisyLinear.biasMat_new (inSize outSize : Nat) (junk : Nat → ℚ) :
    (NoisyLinear.new inSize outSize junk).biasMat = Mat.mk 0 0 [] := by
  simp [NoisyLinear.biasMat, NoisyLinear.new, View.read, View.empty]

theorem Mat.submat_assign_out_of_bounds (G S : Mat) (r1 c1 r2 c2 : Nat)
    (h : G.n_rows ≤ r2) : G.submat_assign r1 c1 r2 c2 S = .error .logic_error := by
  have h1 : r1 > r2 ∨ c1 > c2 ∨ r2 ≥ G.n_rows ∨ c2 ≥ G.n_cols := Or.inr (Or.inr (Or.inl h))
  simp only [Mat.submat_assign, if_pos h1]

/-- C13, as amended. On a layer built by `NoisyLinear(inSize, outSize)` whose `Reset` has
not run, `weight` and `bias` are still empty matrices and nothing checks for that.
`Forward` fails for every input and `Gradient` for every argument (buffer of fewer than
`2^64` rows), both with Armadillo's dimension or bounds error; `Backward` fails exactly
when `gy` has at least one row, and returns the empty `0 x b` matrix when `gy` has none. -/
theorem NoisyLinear.unbound_views_behaviour (inSize outSize : Nat) (junk : Nat → ℚ)
    (X gy E G : Mat) (hG : G.n_rows < 2 ^ 64) :
    (NoisyLinear.new inSize outSize junk).Forward X = .error .logic_error ∧
    (NoisyLinear.new inSize outSize junk).Gradient X E G = .error .logic_error ∧
    ((NoisyLinear.new inSize outSize junk).Backward X gy = .error .logic_error
      ↔ gy.n_rows ≠ 0) ∧
    ((NoisyLinear.new inSize outSize junk).Backward X gy = .ok (Mat.mk 0 gy.n_cols [])
      ↔ gy.n_rows = 0) := by
  have hB : (NoisyLinear.new inSize outSize junk).Backward X gy
      = if 0 = gy.n_rows then .ok (Mat.mk 0 gy.n_cols []) else .error .logic_error := by
    simp [NoisyLinear.Backward, NoisyLinear.weightMat_new, Mat.t, Mat.mul, Mat.ofFn]
  refine ⟨?_, ?_, ?_, ?_⟩
  · simp only [NoisyLinear.Forward, NoisyLinear.weightMat_new, NoisyLinear.biasMat_new,
      Mat.mul, Mat.each_col_add]
    split <;> simp [bind, Except.bind]
  · have hw : (NoisyLinear.new inSize outSize junk).weight.n_elem = 0 := rfl
    have hp : uword_pred 0 = 2 ^ 64 - 1 := rfl
    simp only [NoisyLinear.Gradient, hw, hp, Mat.mul]
    split
    · simp only [bind, Except.bind]
      rw [Mat.submat_assign_out_of_bounds _ _ _ _ _ _ (by omega)]
    · rfl
  · rw [hB]
    by_cases h : 0 = gy.n_rows
    · rw [if_pos h]
      constructor
      · intro e; cases e
      · intro hne; exact absurd h.symm hne
    · rw [if_neg h]
      exact ⟨fun _ e => h e.symm, fun _ => rfl⟩
  · rw [hB]
    by_cases h : 0 = gy.n_rows
    · rw [if_pos h]
      exact ⟨fun _ => h.symm, fun _ => rfl⟩
    · rw [if_neg h]
      constructor
      · intro e; cases e
      · intro e; exact absurd e.symm h

/-- Witness for C13 as amended: `NoisyLinear(2, 1)` without `Reset`, with arguments of the
shapes the layer is built for. -/
theorem NoisyLinear.unbound_views_behaviour_witness :
    (NoisyLinear.new 2 1 (fun _ => 0)).Forward (Mat.mk 2 1 [3, 4]) = .error .logic_error ∧
    (NoisyLinear.new 2 1 (fun _ => 0)).Gradient (Mat.mk 2 1 [3, 4]) (Mat.mk 1 1 [5])
      (Mat.colvec [0, 0, 0]) = .error .logic_error ∧
    (NoisyLinear.new 2 1 (fun _ => 0)).Backward (Mat.mk 2 1 [3, 4]) (Mat.mk 1 1 [5])
      = .error .logic_error := by
  obtain ⟨h1, h2, h3, _⟩ := NoisyLinear.unbound_views_behaviour 2 1 (fun _ => 0)
    (Mat.mk 2 1 [3, 4]) (Mat.mk 1 1 [5]) (Mat.mk 1 1 [5]) (Mat.colvec [0, 0, 0])
    (by simp [Mat.colvec])
  exact ⟨h1, h2, h3.mpr (by decide)⟩

/-- Counterexample to C13 as stated: on `NoisyLinear(2, 0)` without `Reset`, `Backward` with a
`gy` of the layer's own shape `0 x 1` returns a `0 x 1` matrix instead of failing. -/
theorem NoisyLinear.unbound_Backward_counterexample :
    (NoisyLinear.new 2 0 (fun _ => 0)).weight = View.empty ∧
    (NoisyLinear.new 2 0 (fun _ => 0)).Backward (Mat.mk 2 1 [3, 4]) (Mat.mk 0 1 [])
      = .ok (Mat.mk 0 1 []) := by
  refine ⟨rfl, ?_⟩
  simp [NoisyLinear.Backward, NoisyLinear.weightMat_new, Mat.t, Mat.mul, Mat.ofFn]

/-- C14. After `Reset`, `Forward` fails exactly when the input's row count differs from
`inSize` and `Backward` fails exactly when `gy`'s row count differs from `outSize`;
otherwise they return the full `outSize x b`, respectively `inSize x b`, result. -/
theorem NoisyLinear.shape_mismatch_fails (L : NoisyLinear) (X input gy : Mat) :
    (L.Reset.Forward X = .error .logic_error ↔ X.n_rows ≠ L.inSize) ∧
    ((∃ Y, L.Reset.Forward X = .ok Y ∧ Y.n_rows = L.outSize ∧ Y.n_cols = X.n_cols)
      ↔ X.n_rows = L.inSize) ∧
    (L.Reset.Backward input gy = .error .logic_error ↔ gy.n_rows ≠ L.outSize) ∧
    ((∃ g, L.Reset.Backward input gy = .ok g ∧ g.n_rows = L.inSize ∧ g.n_cols = gy.n_cols)
      ↔ gy.n_rows = L.outSize) := by
  have hF : X.n_rows ≠ L.inSize → L.Reset.Forward X = .error .logic_error := by
    intro h
    have hm : ¬ L.Reset.weightMat.n_cols = X.n_rows := fun e => h e.symm
    simp only [NoisyLinear.Forward, Mat.mul, if_neg hm]
    rfl
  have hB : gy.n_rows ≠ L.outSize → L.Reset.Backward input gy = .error .logic_error := by
    intro h
    have hm : ¬ L.Reset.weightMat.t.n_cols = gy.n_rows := fun e => h e.symm
    simp only [NoisyLinear.Backward, Mat.mul, if_neg hm]
  have hB2 : gy.n_rows = L.outSize → ∃ g, L.Reset.Backward input gy = .ok g ∧
      g.n_rows = L.inSize ∧ g.n_cols = gy.n_cols := by
    intro h
    have hm : L.Reset.weightMat.t.n_cols = gy.n_rows := h.symm
    exact ⟨_, Mat.mul_ok hm, rfl, rfl⟩
  refine ⟨⟨?_, hF⟩, ⟨?_, ?_⟩, ⟨?_, hB⟩, ⟨?_, hB2⟩⟩
  · intro h e
    rw [L.Forward_Reset_eq X e] at h
    cases h
  · rintro ⟨Y, hY, _, _⟩
    by_contra hne
    rw [hF hne] at hY
    cases hY
  · intro e
    exact ⟨_, L.Forward_Reset_eq X e, rfl, rfl⟩
  · intro h e
    obtain ⟨g, hg, _, _⟩ := hB2 e
    rw [hg] at h
    cases h
  · rintro ⟨g, hg, _, _⟩
    by_contra hne
    rw [hB hne] at hg
    cases hg

/-! ## DuelingDQN: construction -/

/-- C15. The constructor `DuelingDQN(inputDim, h1, h2, outputDim)` builds the value network
`[Linear(h1, h2), ReLU, Linear(h2, 1)]`, the advantage network
`[Linear(h1, h2), ReLU, Linear(h1, outputDim)]` and the feature network
`[Linear(inputDim, h1), ReLU, Concat(value, advantage)]`, in that order; the `int`
arguments reach `Linear` as `size_t`, unchanged when they are not negative. -/
theorem DuelingDQN.new_architecture (inputDim h1 h2 outputDim : Int) :
    (DuelingDQN.new inputDim h1 h2 outputDim).valueNetwork.network
      = [.Linear (to_size_t h1) (to_size_t h2), .ReLULayer, .Linear (to_size_t h2) 1] ∧
    (DuelingDQN.new inputDim h1 h2 outputDim).advantageNetwork.network
      = [.Linear (to_size_t h1) (to_size_t h2), .ReLULayer,
          .Linear (to_size_t h1) (to_size_t outputDim)] ∧
    (DuelingDQN.new inputDim h1 h2 outputDim).featureNetwork.network
      = [.layer (.Linear (to_size_t inputDim) (to_size_t h1)), .layer .ReLULayer,
          .Concat [(DuelingDQN.new inputDim h1 h2 outputDim).valueNetwork,
                   (DuelingDQN.new inputDim h1 h2 outputDim).advantageNetwork]] ∧
    (DuelingDQN.new inputDim h1 h2 outputDim).valueNetwork.network.getLast?
      = some (.Linear (to_size_t h2) 1) ∧
    (DuelingDQN.new inputDim h1 h2 outputDim).advantageNetwork.network.getLast?
      = some (.Linear (to_size_t h1) (to_size_t outputDim)) ∧
    (∀ n : Nat, to_size_t (n : Int) = n % 2 ^ 64) := by
  refine ⟨rfl, rfl, rfl, rfl, rfl, ?_⟩
  intro n
  unfold to_size_t
  omega

/-- C16, the code at a failing input. In `DuelingDQN(4, 8, 4, 2)` the value network takes
width `8` to width `1`, but the advantage network is
`[Linear(8, 4), ReLU, Linear(8, 2)]`: its last layer expects width `8` after a layer
that produces width `4`, so the network accepts no input width at all. -/
theorem DuelingDQN.advantage_width_mismatch :
    (DuelingDQN.new 4 8 4 2).advantageNetwork.network
      = [.Linear 8 4, .ReLULayer, .Linear 8 2] ∧
    layers_out_width 8 (DuelingDQN.new 4 8 4 2).advantageNetwork.network = none ∧
    layers_out_width 8 (DuelingDQN.new 4 8 4 2).valueNetwork.network = some 1 ∧
    (∀ w, layers_out_width w (DuelingDQN.new 4 8 4 2).advantageNetwork.network = none) := by
  refine ⟨by decide, by decide, by decide, ?_⟩
  intro w
  have h : (DuelingDQN.new 4 8 4 2).advantageNetwork.network
      = [.Linear 8 4, .ReLULayer, .Linear 8 2] := by decide
  rw [h]
  by_cases hw : 8 = w
  · subst hw; decide
  · simp [layers_out_width, Layer.out_width, hw]

/-- C20. `Predict`, `Forward` and `Backward` leave `actionValue`, `output` and `gradient`
as they were, and none of them changes the object: the cached `networkOutput` and
`features`, the three networks and the parameter matrix stay the same. -/
theorem DuelingDQN.calls_change_nothing (q : DuelingDQN)
    (state actionValue output target gradient : Mat) :
    (q.Predict state actionValue).2 = actionValue ∧
    (q.Forward state output).2 = output ∧
    (q.Backward state target gradient).2.2 = gradient ∧
    (q.Backward state target gradient).2.1 = target ∧
    (q.Predict state actionValue).1 = q ∧
    (q.Forward state output).1 = q ∧
    (q.Backward state target gradient).1 = q ∧
    (q.Forward state output).1.networkOutput = q.networkOutput ∧
    (q.Forward state output).1.features = q.features ∧
    (q.Forward state output).1.featureNetwork.parameter = q.featureNetwork.parameter ∧
    (q.Backward state target gradient).1.networkOutput = q.networkOutput ∧
    (q.Backward state target gradient).1.features = q.features ∧
    (q.Backward state target gradient).1.featureNetwork.parameter
      = q.featureNetwork.parameter :=
  ⟨rfl, rfl, rfl, rfl, rfl, rfl, rfl, rfl, rfl, rfl, rfl, rfl, rfl⟩

/-! ## NoisyLinear: Gradient as a function of input and error -/

/-- Two well-formed matrices of one shape with the same elements are equal. -/
theorem Mat.ext_elem {A B : Mat} (hA : A.wf) (hB : B.wf) (hr : A.n_rows = B.n_rows)
    (hc : A.n_cols = B.n_cols)
    (h : ∀ i j, i < A.n_rows → j < A.n_cols → A.elem i j = B.elem i j) : A = B := by
  obtain ⟨ar, ac, am⟩ := A
  obtain ⟨br, bc, bm⟩ := B
  simp only [Mat.wf] at hA hB
  simp only at hr hc
  subst hr hc
  have hm : am = bm := by
    apply List.ext_getElem (by rw [hA, hB])
    intro t h1 h2
    have ht : t < ar * ac := by rw [← hA]; exact h1
    have hpos : 0 < ar := by
      rcases Nat.eq_zero_or_pos ar with h0 | h0
      · rw [h0, Nat.zero_mul] at ht; exact absurd ht (Nat.not_lt_zero _)
      · exact h0
    have hdiv : t / ar < ac := (Nat.div_lt_iff_lt_mul hpos).mpr (by rw [Nat.mul_comm]; exact ht)
    have hidx : t % ar + t / ar * ar = t := by
      rw [Nat.mul_comm]; exact Nat.mod_add_div t ar
    have he := h (t % ar) (t / ar) (Nat.mod_lt _ hpos) hdiv
    simp only [Mat.elem, hidx] at he
    rw [List.getD_eq_getElem _ _ h1, List.getD_eq_getElem _ _ h2] at he
    exact he
  rw [hm]

/-- The buffer `Gradient` leaves, written out: it is determined by the sizes, the input
and the error alone. -/
theorem NoisyLinear.Gradient_Reset_eq (L : NoisyLinear) (X E G : Mat)
    (hin : 1 ≤ L.inSize) (hout : 1 ≤ L.outSize)
    (hXr : X.n_rows = L.inSize) (hEr : E.n_rows = L.outSize) (hb : E.n_cols = X.n_cols)
    (hGr : G.n_rows = L.outSize * L.inSize + L.outSize) (hGc : G.n_cols = 1) :
    L.Reset.Gradient X E G = .ok (Mat.ofFn (L.outSize * L.inSize + L.outSize) 1 (fun k _ =>
      if k < L.outSize * L.inSize then
        ∑ c ∈ Finset.range X.n_cols, E.elem (k % L.outSize) c * X.elem (k / L.outSize) c
      else ∑ c ∈ Finset.range X.n_cols, E.elem (k - L.outSize * L.inSize) c)) := by
  obtain ⟨g, hg, hwf, hr, hc, hw, hbias⟩ :=
    L.Gradient_Reset_entries X E G hin hout hXr hEr hb hGr hGc
  rw [hg]
  congr 1
  apply Mat.ext_elem hwf (Mat.wf_ofFn _ _ _) hr hc
  intro k j hk hj
  have hj0 : j = 0 := by omega
  subst hj0
  rw [hr] at hk
  rw [Mat.elem_ofFn _ hk Nat.zero_lt_one]
  by_cases hlt : k < L.outSize * L.inSize
  · rw [if_pos hlt]
    have hdiv : k / L.outSize < L.inSize :=
      (Nat.div_lt_iff_lt_mul hout).mpr (by rw [Nat.mul_comm]; exact hlt)
    have hidx : L.Reset.weight.off + (k % L.outSize + k / L.outSize * L.Reset.weight.n_rows)
        = k := by
      show 0 + (k % L.outSize + k / L.outSize * L.outSize) = k
      rw [Nat.zero_add, Nat.mul_comm]
      exact Nat.mod_add_div k L.outSize
    have h := hw (k % L.outSize) (k / L.outSize) (Nat.mod_lt _ hout) hdiv
    rw [hidx] at h
    exact h
  · rw [if_neg hlt]
    have h := hbias (k - L.outSize * L.inSize) (by omega)
    rw [show L.outSize * L.inSize + (k - L.outSize * L.inSize) = k by omega] at h
    exact h

/-- C19. For `inSize >= 1` and `outSize >= 1`, `Gradient` run on two buffers of length
`outSize * inSize + outSize` with arbitrary contents, from two layers of the same sizes
with arbitrary parameter values, leaves the two buffers equal: every entry is
overwritten and the result depends on the input and the error only. -/
theorem NoisyLinear.Gradient_overwrites_buffer (L1 L2 : NoisyLinear) (X E G1 G2 : Mat)
    (hsi : L2.inSize = L1.inSize) (hso : L2.outSize = L1.outSize)
    (hin : 1 ≤ L1.inSize) (hout : 1 ≤ L1.outSize)
    (hXr : X.n_rows = L1.inSize) (hEr : E.n_rows = L1.outSize) (hb : E.n_cols = X.n_cols)
    (hG1r : G1.n_rows = L1.outSize * L1.inSize + L1.outSize) (hG1c : G1.n_cols = 1)
    (hG2r : G2.n_rows = L1.outSize * L1.inSize + L1.outSize) (hG2c : G2.n_cols = 1) :
    ∃ g, L1.Reset.Gradient X E G1 = .ok g ∧ L2.Reset.Gradient X E G2 = .ok g ∧ g.wf ∧
      g.n_rows = L1.outSize * L1.inSize + L1.outSize ∧ g.n_cols = 1 := by
  refine ⟨_, L1.Gradient_Reset_eq X E G1 hin hout hXr hEr hb hG1r hG1c, ?_,
    Mat.wf_ofFn _ _ _, rfl, rfl⟩
  have h2 := L2.Gradient_Reset_eq X E G2 (by omega) (by omega) (by omega) (by omega) hb
    (by rw [hsi, hso]; exact hG2r) hG2c
  rw [hsi, hso] at h2
  exact h2

/-- Witness for C19: `inSize = 2`, `outSize = 1`, one sample, the buffers `[0, 0, 0]` and
`[7, 8, 9]`, and two layers with the blocks `[1, 2, 1/2]` and `[0, 0, 0]`. -/
theorem NoisyLinear.Gradient_overwrites_buffer_witness :
    ∃ g, (NoisyLinear.mk 2 1 (Mat.colvec [1, 2, 1 / 2]) View.empty View.empty).Reset.Gradient
        (Mat.mk 2 1 [3, 4]) (Mat.mk 1 1 [5]) (Mat.colvec [0, 0, 0]) = .ok g ∧
      (NoisyLinear.mk 2 1 (Mat.colvec [0, 0, 0]) View.empty View.empty).Reset.Gradient
        (Mat.mk 2 1 [3, 4]) (Mat.mk 1 1 [5]) (Mat.colvec [7, 8, 9]) = .ok g := by
  obtain ⟨g, h1, h2, _⟩ := NoisyLinear.Gradient_overwrites_buffer
    (NoisyLinear.mk 2 1 (Mat.colvec [1, 2, 1 / 2]) View.empty View.empty)
    (NoisyLinear.mk 2 1 (Mat.colvec [0, 0, 0]) View.empty View.empty)
    (Mat.mk 2 1 [3, 4]) (Mat.mk 1 1 [5]) (Mat.colvec [0, 0, 0]) (Mat.colvec [7, 8, 9])
    rfl rfl (by decide) (by decide) rfl rfl rfl rfl rfl rfl rfl
  exact ⟨g, h1, h2⟩

/-- A sum over the flat indices of an `r x c` column-major matrix, taken column by
column. -/
theorem Mat.sum_range_mul (f : Nat → ℚ) (r c : Nat) :
    ∑ k ∈ Finset.range (r * c), f k
      = ∑ j ∈ Finset.range c, ∑ i ∈ Finset.range r, f (i + j * r) := by
  induction c with
  | zero => simp
  | succ n ih =>
    rw [Nat.mul_succ, Finset.sum_range_add, ih, Finset.sum_range_succ]
    congr 1
    apply Finset.sum_congr rfl
    intro i _
    rw [Nat.mul_comm r n, Nat.add_comm]

/-- C18. For `inSize >= 1` and `outSize >= 1` and a block `p` of length
`outSize * inSize + outSize`, pairing the buffer `Gradient` leaves with the block,
entry by entry, gives the same number as pairing the error with the output of
`Forward`: `sum_k g[k] * p[k] = sum_(i,c) E(i, c) * Forward(X)(i, c)`. -/
theorem NoisyLinear.Gradient_pairs_with_Forward (L : NoisyLinear) (X E G : Mat)
    (hL : L.Allocated) (hin : 1 ≤ L.inSize) (hout : 1 ≤ L.outSize)
    (hXr : X.n_rows = L.inSize) (hEr : E.n_rows = L.outSize) (hb : E.n_cols = X.n_cols)
    (hGr : G.n_rows = L.outSize * L.inSize + L.outSize) (hGc : G.n_cols = 1) :
    L.Reset.weights.mem.length = L.outSize * L.inSize + L.outSize ∧
    ∃ g Y, L.Reset.Gradient X E G = .ok g ∧ L.Reset.Forward X = .ok Y ∧
      ∑ k ∈ Finset.range (L.outSize * L.inSize + L.outSize),
          g.elem k 0 * L.Reset.weights.elem k 0
        = ∑ i ∈ Finset.range L.outSize, ∑ c ∈ Finset.range X.n_cols,
            E.elem i c * Y.elem i c := by
  refine ⟨hL.length, _, _, L.Gradient_Reset_eq X E G hin hout hXr hEr hb hGr hGc,
    L.Forward_Reset_eq X hXr, ?_⟩
  have hp : ∀ k, L.Reset.weights.elem k 0 = L.weights.mem.getD k 0 := by
    intro k; simp [Mat.elem, NoisyLinear.Reset]
  -- the left-hand side, split into the weight part and the bias part
  rw [Finset.sum_range_add]
  have hleft1 : ∑ k ∈ Finset.range (L.outSize * L.inSize),
      (Mat.ofFn (L.outSize * L.inSize + L.outSize) 1 (fun k _ =>
        if k < L.outSize * L.inSize then
          ∑ c ∈ Finset.range X.n_cols, E.elem (k % L.outSize) c * X.elem (k / L.outSize) c
        else ∑ c ∈ Finset.range X.n_cols, E.elem (k - L.outSize * L.inSize) c)).elem k 0
        * L.Reset.weights.elem k 0
      = ∑ j ∈ Finset.range L.inSize, ∑ i ∈ Finset.range L.outSize,
          ∑ c ∈ Finset.range X.n_cols,
            E.elem i c * X.elem j c * L.weights.mem.getD (i + j * L.outSize) 0 := by
    rw [Mat.sum_range_mul]
    apply Finset.sum_congr rfl
    intro j hj
    apply Finset.sum_congr rfl
    intro i hi
    have hi1 := Finset.mem_range.mp hi
    have hj1 := Finset.mem_range.mp hj
    have hlt : i + j * L.outSize < L.outSize * L.inSize := Mat.index_lt hi1 hj1
    rw [Mat.elem_ofFn _ (by omega) Nat.zero_lt_one, if_pos hlt, hp,
      Nat.add_mul_mod_self_right, Nat.mod_eq_of_lt hi1,
      Nat.add_mul_div_right _ _ (by omega), Nat.div_eq_of_lt hi1, Nat.zero_add,
      Finset.sum_mul]
  have hleft2 : ∑ i ∈ Finset.range L.outSize,
      (Mat.ofFn (L.outSize * L.inSize + L.outSize) 1 (fun k _ =>
        if k < L.outSize * L.inSize then
          ∑ c ∈ Finset.range X.n_cols, E.elem (k % L.outSize) c * X.elem (k / L.outSize) c
        else ∑ c ∈ Finset.range X.n_cols, E.elem (k - L.outSize * L.inSize) c)).elem
          (L.outSize * L.inSize + i) 0
        * L.Reset.weights.elem (L.outSize * L.inSize + i) 0
      = ∑ i ∈ Finset.range L.outSize, ∑ c ∈ Finset.range X.n_cols,
          E.elem i c * L.weights.mem.getD (L.outSize * L.inSize + i) 0 := by
    apply Finset.sum_congr rfl
    intro i hi
    have hi1 := Finset.mem_range.mp hi
    rw [Mat.elem_ofFn _ (by omega) Nat.zero_lt_one, if_neg (by omega), hp,
      Nat.add_sub_cancel_left, Finset.sum_mul]
  -- the right-hand side, entry by entry
  have hright : ∑ i ∈ Finset.range L.outSize, ∑ c ∈ Finset.range X.n_cols,
      E.elem i c * (Mat.ofFn L.outSize X.n_cols (fun i k =>
        (Mat.ofFn L.outSize X.n_cols (fun i k =>
          ∑ j ∈ Finset.range L.inSize, L.Reset.weightMat.elem i j * X.elem j k)).elem i k
        + L.Reset.biasMat.elem i 0)).elem i c
      = ∑ i ∈ Finset.range L.outSize, ∑ c ∈ Finset.range X.n_cols,
          ((∑ j ∈ Finset.range L.inSize,
              E.elem i c * X.elem j c * L.weights.mem.getD (i + j * L.outSize) 0)
            + E.elem i c * L.weights.mem.getD (L.outSize * L.inSize + i) 0) := by
    apply Finset.sum_congr rfl
    intro i hi
    apply Finset.sum_congr rfl
    intro c hc
    have hi1 := Finset.mem_range.mp hi
    have hc1 := Finset.mem_range.mp hc
    rw [Mat.elem_ofFn _ hi1 hc1, Mat.elem_ofFn _ hi1 hc1, mul_add, Finset.mul_sum,
      L.bias_elem_Reset hi1]
    congr 1
    apply Finset.sum_congr rfl
    intro j hj
    rw [L.weight_elem_Reset hi1 (Finset.mem_range.mp hj), Nat.add_comm (j * L.outSize) i]
    ring
  rw [hleft1, hleft2, hright]
  simp only [Finset.sum_add_distrib]
  congr 1
  rw [Finset.sum_comm]
  apply Finset.sum_congr rfl
  intro i _
  rw [Finset.sum_comm]

/-- Witness for C18: `inSize = 2`, `outSize = 1`, block `[1, 2, 1/2]`, input column
`(3, 4)` and error `[5]`: both pairings give `5 * 11.5 = 57.5`. -/
theorem NoisyLinear.Gradient_pairs_with_Forward_witness :
    ∃ g Y, (NoisyLinear.mk 2 1 (Mat.colvec [1, 2, 1 / 2]) View.empty View.empty).Reset.Gradient
        (Mat.mk 2 1 [3, 4]) (Mat.mk 1 1 [5]) (Mat.colvec [0, 0, 0]) = .ok g ∧
      (NoisyLinear.mk 2 1 (Mat.colvec [1, 2, 1 / 2]) View.empty View.empty).Reset.Forward
        (Mat.mk 2 1 [3, 4]) = .ok Y ∧
      g.elem 0 0 * 1 + g.elem 1 0 * 2 + g.elem 2 0 * (1 / 2) = 5 * Y.elem 0 0 := by
  have hL : (NoisyLinear.mk 2 1 (Mat.colvec [1, 2, 1 / 2]) View.empty View.empty).Allocated := by
    simp [NoisyLinear.Allocated, Mat.colvec, Mat.wf]
  obtain ⟨_, g, Y, hg, hY, h⟩ := NoisyLinear.Gradient_pairs_with_Forward
    (NoisyLinear.mk 2 1 (Mat.colvec [1, 2, 1 / 2]) View.empty View.empty)
    (Mat.mk 2 1 [3, 4]) (Mat.mk 1 1 [5]) (Mat.colvec [0, 0, 0]) hL
    (by decide) (by decide) rfl rfl rfl rfl rfl
  refine ⟨g, Y, hg, hY, ?_⟩
  simpa [Finset.sum_range_succ, NoisyLinear.Reset, Mat.elem, Mat.colvec] using h

end mlpack
